import Mathlib

/-!
Verification of `optimize_post_images.py`, a tool that converts a blog
post's image attachments to WebP and rewrites the markdown references.

The Python source is shallowly embedded below.  Strings are modelled as
`List Char`; the filesystem is modelled explicitly: a directory listing is a
`List` of entry names and filesystem mutations are recorded as an explicit
trace of `FsWrite` events.  The third-party image codec (PIL) is modelled by
an oracle `transcode : Str → Except Str (Nat × Nat)` mapping a source name
to either an error text (a raised exception) or the pair
(original byte size, new byte size).  Python float arithmetic in the two
numeric spots (resize and compression percentage) is idealized as exact
rational arithmetic followed by `int()` truncation, which is how the code
computes both values up to float rounding error.
-/

namespace PostImages

/-- Strings of the Python program, modelled as lists of characters. -/
abbrev Str := List Char

/-! ## Small string utilities mirroring Python primitives -/

/-- Python `str.split('/')`: splits on every `'/'`, keeping empty pieces
(`''.split('/') == ['']`, `'a//b'.split('/') == ['a','','b']`). -/
def splitSlash : Str → List Str
  | [] => [[]]
  | c :: rest =>
    let r := splitSlash rest
    if c = '/' then [] :: r
    else
      match r with
      | [] => [[c]]
      | h :: t => (c :: h) :: t

/-- `PurePosixPath(p).name`: pathlib drops empty and `'.'` components and
`name` is the last remaining component (or `''` when none remains, e.g. for
`'/'` or `''`).  `'..'` components are kept, as pathlib does. -/
def pathName (p : Str) : Str :=
  (((splitSlash p).filter (fun c => !c.isEmpty && !(c == ['.']))).getLast?).getD []

/-- Index of the last `'.'` of a name, if any (Python `name.rfind('.')`,
restricted to the found case). -/
def lastDotIdx (name : Str) : Option Nat :=
  (name.reverse.findIdx? (fun c => c == '.')).map (fun j => name.length - 1 - j)

/-- `PurePath.stem` applied to a bare name: the name without its last
suffix.  pathlib keeps the whole name when the last dot is at position `0`
(hidden files like `.bashrc`) or at the very end (`'name.'`). -/
def stemName (name : Str) : Str :=
  match lastDotIdx name with
  | none => name
  | some i => if 0 < i ∧ i < name.length - 1 then name.take i else name

/-- `PurePath.suffix` applied to a bare name: the last suffix with its dot,
or `''` when there is none (same corner cases as `stemName`). -/
def extName (name : Str) : Str :=
  match lastDotIdx name with
  | none => []
  | some i => if 0 < i ∧ i < name.length - 1 then name.drop i else []

/-- `Path(p).stem` for an arbitrary path: the stem of its final component. -/
def pyPathStem (p : Str) : Str := stemName (pathName p)

/-- Python `needle in hay` on strings: contiguous substring test. -/
def subOf (needle hay : Str) : Bool :=
  (List.range (hay.length + 1)).any (fun i => needle.isPrefixOf (hay.drop i))

/-- Python `str.replace(pat, rep)` for a non-empty `pat`: replace every
non-overlapping occurrence, scanning left to right, without rescanning the
replacement.  Structured with explicit fuel so that it computes by kernel
reduction; the wrapper below supplies fuel `s.length`, which is always
enough since every step consumes at least one character. -/
def replaceAllGo (pat rep : Str) : Nat → Str → Str
  | _, [] => []
  | 0, s => s
  | fuel + 1, c :: rest =>
    if pat ≠ [] ∧ pat.isPrefixOf (c :: rest) then
      rep ++ replaceAllGo pat rep fuel (rest.drop (pat.length - 1))
    else
      c :: replaceAllGo pat rep fuel rest

/-- Python `s.replace(pat, rep)` (for the non-empty patterns this program
uses). -/
def replaceAll (pat rep s : Str) : Str := replaceAllGo pat rep s.length s

/-! ## `get_file_type` (source lines 141-158) -/

/-- The recognized file types of `get_file_type`. -/
inductive FileType
  | jpeg
  | heic
  | tiff
  | png
  | webp
  | video
deriving DecidableEq

/-- `get_file_type(filename)`: classify by the lower-cased extension of the
path's final component; `None` (here `none`) for unrecognized extensions. -/
def get_file_type (filename : Str) : Option FileType :=
  let ext := (extName (pathName filename)).map Char.toLower
  if ext == ".jpg".toList || ext == ".jpeg".toList then some FileType.jpeg
  else if ext == ".heic".toList then some FileType.heic
  else if ext == ".tif".toList || ext == ".tiff".toList then some FileType.tiff
  else if ext == ".png".toList then some FileType.png
  else if ext == ".webp".toList then some FileType.webp
  else if ext == ".mov".toList || ext == ".mp4".toList || ext == ".avi".toList then
    some FileType.video
  else none

/-! ## `find_file_by_basename` (source lines 161-188)

The attachments directory is modelled as the list of its regular-file entry
names, in `iterdir` order. -/

/-- `find_file_by_basename(attachments_dir, filename)`: exact name first,
then the first file whose stem equals the requested stem, then the first
file whose name contains the requested stem as a substring, else `None`. -/
def find_file_by_basename (files : List Str) (filename : Str) : Option Str :=
  if filename ∈ files then some filename
  else
    let basename := pyPathStem filename
    match files.find? (fun f => stemName f == basename) with
    | some f => some f
    | none => files.find? (fun f => subOf basename f)

/-! ## `extract_image_references` (source lines 125-138)

`re.findall(r'(image pattern)', text)` scans start positions left to right
and, on a match, continues after the matched text.  With the two character
classes of this pattern (alt text: no `']'`; path: no `')'`, non-empty) the
match at a given start position is deterministic: the alt text must run to
the first `']'` and the path to the first `')'`. -/

/-- The full matched text `f'![{alt}]({path})'` rebuilt by the Python code
(which is exactly the matched substring). -/
def mkRef (alt path : Str) : Str :=
  '!' :: '[' :: (alt ++ ']' :: '(' :: (path ++ [')']))

/-- Try to match the image-reference pattern at the start of `s`; on
success, return `((full match, alt, path), rest of the input)`.  The alt
text is everything up to the first `']'` and the path everything up to the
first `')'` (which must be non-empty), exactly as the regex backtracking
resolves the two character classes. -/
def matchImageAt (s : Str) : Option ((Str × Str × Str) × Str) :=
  match s with
  | c1 :: c2 :: r =>
    if c1 = '!' ∧ c2 = '[' then
      match r.dropWhile (fun c => c ≠ ']') with
      | c3 :: c4 :: r2 =>
        if c3 = ']' ∧ c4 = '(' then
          match r2.dropWhile (fun c => c ≠ ')') with
          | c5 :: r4 =>
            if c5 = ')' ∧ r2.takeWhile (fun c => c ≠ ')') ≠ [] then
              some ((mkRef (r.takeWhile (fun c => c ≠ ']')) (r2.takeWhile (fun c => c ≠ ')')),
                  r.takeWhile (fun c => c ≠ ']'), r2.takeWhile (fun c => c ≠ ')')), r4)
            else none
          | [] => none
        else none
      | _ => none
    else none
  | _ => none

/-- Fueled scanner for `re.findall`: try to match at each position, and on a
match continue after it.  Fuel `s.length` suffices because each step
consumes at least one character. -/
def extractGo : Nat → Str → List (Str × Str × Str)
  | _, [] => []
  | 0, _ :: _ => []
  | fuel + 1, c :: r =>
    match matchImageAt (c :: r) with
    | some (t, rest) => t :: extractGo fuel rest
    | none => extractGo fuel r

/-- `extract_image_references(markdown_content)`: the ordered list of
`(full match, alt text, path)` triples. -/
def extract_image_references (s : Str) : List (Str × Str × Str) :=
  extractGo s.length s

/-! ## `ImageOptimizer` (source lines 35-107) -/

/-- The resize arithmetic of `convert_to_webp` (source lines 58-66): if the
larger dimension exceeds `max_width`, the larger side becomes `max_width`
and the smaller side is scaled by the same ratio and truncated by `int()`
(floor, as the value is non-negative; float arithmetic idealized as exact).
Returns `(new_width, new_height)`. -/
def resize_dimensions (max_width w h : Nat) : Nat × Nat :=
  if max w h > max_width then
    if w > h then (max_width, h * max_width / w)
    else (w * max_width / h, max_width)
  else (w, h)

/-- The outcome dictionary of `ImageOptimizer.process_image`: either a
success record or a failure record carrying the exception text.  The
reporting-only `action` string of the Python dict is omitted. -/
inductive ProcResult
  | ok (input output : Str) (original_size new_size : Nat) (compression : Int)
  | fail (input error : Str)
deriving DecidableEq

/-- Whether a result is a success (`result['success']`). -/
def ProcResult.isOk : ProcResult → Bool
  | .ok _ _ _ _ _ => true
  | .fail _ _ => false

/-- `ImageOptimizer.process_image` (source lines 79-107): run the transcode
oracle; on success compute `int((1 - new/orig) * 100)` guarded by
`orig > 0` (the `int()` of the exact value is truncation toward zero,
`Int.tdiv` by a positive divisor); any exception is caught and returned as
a failure record with the error text. -/
def process_image (transcode : Str → Except Str (Nat × Nat)) (input output : Str) :
    ProcResult :=
  match transcode input with
  | Except.ok (orig, newSize) =>
    ProcResult.ok input output orig newSize
      (if 0 < orig then Int.tdiv (((orig : Int) - (newSize : Int)) * 100) (orig : Int) else 0)
  | Except.error e => ProcResult.fail input e

/-! ## Planning (source lines 254-303) -/

/-- `f"img_{idx:02d}"`'s numeric part: decimal digits left-padded with `'0'`
to width 2. -/
def pad2 (n : Nat) : Str :=
  let s := (Nat.repr n).toList
  if s.length < 2 then '0' :: s else s

/-- Lines 261-264: `filename = Path(path).name`, then the (dead) branch that
strips a leading `'Attachments/'`. -/
def refFilename (path : Str) : Str :=
  let filename := pathName path
  if "Attachments/".toList.isPrefixOf filename then
    replaceAll "Attachments/".toList [] filename
  else filename

/-- One entry of `files_to_process`: `(file_path, new_name + new_ext, idx)`.
`src` is the resolved file's name (`file_path.name`). -/
structure PlanEntry where
  src : Str
  newName : Str
  idx : Nat
deriving DecidableEq

/-- The classification lists accumulated by the planning loop. -/
structure PlanState where
  files_to_process : List PlanEntry
  processed_files : List Str
  missing_files : List Str
  skipped_videos : List Str
  unknown_types : List Str

/-- The planning loop of `process_post` (lines 260-299): for each reference
in markdown order, with its 1-based index, resolve the referenced filename
against the attachments listing and classify it.  `processed_files` is a
Python `set`; it is modelled as a list queried only through membership. -/
def planRefsGo (files : List Str) (no_rename : Bool) :
    Nat → List (Str × Str × Str) → PlanState
  | _, [] => ⟨[], [], [], [], []⟩
  | idx, (_, _, path) :: rest =>
    let st := planRefsGo files no_rename (idx + 1) rest
    let filename := refFilename path
    match find_file_by_basename files filename with
    | none => { st with missing_files := filename :: st.missing_files }
    | some fp =>
      match get_file_type fp with
      | some FileType.video => { st with skipped_videos := filename :: st.skipped_videos }
      | none => { st with unknown_types := filename :: st.unknown_types }
      | some _ =>
        let newName :=
          (if no_rename then pyPathStem filename else "img_".toList ++ pad2 idx)
            ++ ".webp".toList
        { st with
            files_to_process := ⟨fp, newName, idx⟩ :: st.files_to_process,
            processed_files := fp :: st.processed_files }

/-! ## The orchestrator `process_post` (source lines 219-438) -/

/-- Command-line configuration relevant to the model. -/
structure Config where
  max_width : Nat
  quality : Nat
  dry_run : Bool
  no_rename : Bool
  hugo : Bool

/-- The inputs a run observes: the validation facts about the source
directory, the markdown content, the attachments listing (regular-file
entry names in `iterdir` order) and the transcode oracle. -/
structure RunInput where
  dir_exists : Bool
  is_dir : Bool
  md_name : Option Str
  has_attachments : Bool
  markdown : Str
  attachments : List Str
  transcode : Str → Except Str (Nat × Nat)

/-- `validate_source_directory` (source lines 200-216): directory exists, is
a directory, a markdown file was found, and `Attachments/` exists. -/
def validate_source_directory (inp : RunInput) : Bool :=
  inp.dir_exists && inp.is_dir && inp.md_name.isSome && inp.has_attachments

/-- A recorded filesystem mutation of the run. -/
inductive FsWrite
  | mkdirOut
  | writeImage (name : Str)
  | writeMarkdown (name : Str)
  | mkdirHugo
  | copyToHugo (name : Str)
deriving DecidableEq

/-- Everything `process_post` produces: the success flag, the plan and the
classification lists, the per-file results, the rewritten markdown (written
to the output directory) and the trace of filesystem writes. -/
structure RunResult where
  success : Bool
  plan : List PlanEntry
  missing : List Str
  skipped_videos : List Str
  unknown_types : List Str
  unused : List Str
  results : List ProcResult
  newMarkdown : Option Str
  writes : List FsWrite

/-- `process_post` (source lines 219-438): validate, extract references,
plan, compute the unused set; in dry-run mode print the plan and stop with
no writes; otherwise create the output directory, transcode every plan
entry, rewrite the markdown by replacing, for each `(reference, plan
entry)` pair of `zip(image_refs, files_to_process)`, every occurrence of
the reference's full matched text by `f'![{alt}]({new_name})'`, write the
markdown, and optionally copy the outputs to the hugo directory. -/
def process_post (inp : RunInput) (cfg : Config) : RunResult :=
  if !validate_source_directory inp then
    ⟨false, [], [], [], [], [], [], none, []⟩
  else
    let refs := extract_image_references inp.markdown
    let st := planRefsGo inp.attachments cfg.no_rename 1 refs
    let unused := inp.attachments.filter (fun f => !(st.processed_files.contains f))
    if cfg.dry_run then
      ⟨true, st.files_to_process, st.missing_files, st.skipped_videos, st.unknown_types,
        unused, [], none, []⟩
    else
      let results := st.files_to_process.map (fun e => process_image inp.transcode e.src e.newName)
      let newMd :=
        (refs.zip st.files_to_process).foldl
          (fun md p => replaceAll p.1.1 (mkRef p.1.2.1 p.2.newName) md) inp.markdown
      let okNames :=
        (st.files_to_process.zip results).filterMap
          (fun p => if p.2.isOk then some p.1.newName else none)
      let writes :=
        FsWrite.mkdirOut :: okNames.map FsWrite.writeImage
          ++ [FsWrite.writeMarkdown (inp.md_name.getD [])]
          ++ (if cfg.hugo then
                FsWrite.mkdirHugo :: FsWrite.copyToHugo (inp.md_name.getD [])
                  :: okNames.map FsWrite.copyToHugo
              else [])
      ⟨true, st.files_to_process, st.missing_files, st.skipped_videos, st.unknown_types,
        unused, results, some newMd, writes⟩

/-! ## Concrete run inputs used by evaluation theorems and witnesses -/

/-- A post whose markdown references one missing and one present attachment. -/
def inpMissingFirst : RunInput :=
  ⟨true, true, some "index.md".toList, true,
    "![a](missing.jpg) ![b](photo.jpg)".toList,
    ["photo.jpg".toList],
    fun _ => Except.ok (100, 50)⟩

/-- Default configuration: rename on, no dry run, no hugo copy. -/
def cfgDefault : Config := ⟨1600, 95, false, false, false⟩

/-- Same configuration with dry-run enabled. -/
def cfgDryRun : Config := ⟨1600, 95, true, false, false⟩

/-- Whether a reference's path resolves to a known, non-video attachment,
i.e. produces a plan entry (used to state the all-references-resolve case
of the naming claim). -/
def resolvesB (files : List Str) (path : Str) : Bool :=
  match find_file_by_basename files (refFilename path) with
  | none => false
  | some fp =>
    match get_file_type fp with
    | none => false
    | some FileType.video => false
    | some _ => true

/-- Attachments listing with two images, both referenced below. -/
def filesTwo : List Str := ["a.jpg".toList, "b.png".toList]

/-- Two references, both of which resolve. -/
def refsTwo : List (Str × Str × Str) :=
  [("![x](a.jpg)".toList, "x".toList, "a.jpg".toList),
   ("![y](b.png)".toList, "y".toList, "b.png".toList)]

/-- A post whose first referenced attachment fails to transcode ("boom")
while the second succeeds. -/
def inpFailFirst : RunInput :=
  ⟨true, true, some "index.md".toList, true,
    "![a](bad.jpg) ![b](good.jpg)".toList,
    ["bad.jpg".toList, "good.jpg".toList],
    fun n => if n = "bad.jpg".toList then Except.error "boom".toList
             else Except.ok (100, 40)⟩

/-- Markdown text decomposed as alternating plain text and well-formed
image references: `interleave t0 [((a1,p1),t1), ((a2,p2),t2)]` is
`t0 ++ ![a1](p1) ++ t1 ++ ![a2](p2) ++ t2`.  Used to state what extraction
returns on markdown whose references do not overlap. -/
def interleave : Str → List ((Str × Str) × Str) → Str
  | t0, [] => t0
  | t0, ((alt, path), t) :: rest => t0 ++ (mkRef alt path ++ interleave t rest)

/-! ## Theorems -/

/-- Every component produced by `splitSlash` is free of `'/'`. -/
theorem splitSlash_no_slash (s : Str) : ∀ comp ∈ splitSlash s, '/' ∉ comp := by
  induction s with
  | nil =>
    intro comp hc
    simp only [splitSlash, List.mem_singleton] at hc
    simp [hc]
  | cons c rest ih =>
    intro comp hc
    by_cases h : c = '/'
    · subst h
      simp [splitSlash] at hc
      rcases hc with h1 | h2
      · simp [h1]
      · exact ih comp h2
    · cases hr : splitSlash rest with
      | nil =>
        rw [splitSlash, hr] at hc
        simp only [if_neg h, List.mem_singleton] at hc
        simp [hc, Ne.symm h]
      | cons hh tt =>
        rw [splitSlash, hr] at hc
        simp only [if_neg h, List.mem_cons] at hc
        rcases hc with h1 | h2
        · subst h1
          intro hmem
          rcases List.mem_cons.mp hmem with h3 | h4
          · exact h h3.symm
          · exact ih hh (hr ▸ List.mem_cons_self hh tt) h4
        · exact ih comp (hr ▸ List.mem_cons_of_mem hh h2)

/-- The final component of a path never contains `'/'`. -/
theorem pathName_no_slash (p : Str) : '/' ∉ pathName p := by
  unfold pathName
  cases hl : (((splitSlash p).filter (fun c => !c.isEmpty && !(c == ['.'])))).getLast? with
  | none => simp [hl]
  | some comp =>
    simp only [hl, Option.getD_some]
    exact splitSlash_no_slash p comp
      (List.mem_of_mem_filter (List.mem_of_mem_getLast? hl))

/-- C10: the filename handed to the resolver is always the path's final
component: `Path(path).name` can never start with `'Attachments/'` because
it never contains a directory separator, so the stripping branch of lines
263-264 is unreachable and `refFilename` is just `pathName`. -/
theorem C10_strip_unreachable (p : Str) :
    refFilename p = pathName p
      ∧ "Attachments/".toList.isPrefixOf (pathName p) = false
      ∧ (pathName p).contains '/' = false := by
  have hns : '/' ∉ pathName p := pathName_no_slash p
  have hpre : "Attachments/".toList.isPrefixOf (pathName p) = false := by
    cases hb : "Attachments/".toList.isPrefixOf (pathName p) with
    | false => rfl
    | true =>
      exfalso
      apply hns
      obtain ⟨t, ht⟩ := List.isPrefixOf_iff_prefix.mp hb
      rw [← ht]
      exact List.mem_append_left t (by decide)
  refine ⟨?_, hpre, ?_⟩
  · rw [refFilename]
    simp only [hpre, Bool.false_eq_true, if_false]
  · cases hb : (pathName p).contains '/' with
    | false => rfl
    | true => exact absurd (List.elem_iff.mp hb) hns

/-- C1 (bug evidence): with markdown `![a](missing.jpg) ![b](photo.jpg)`
and an attachments folder holding only `photo.jpg`, the rewrite step of
`process_post` replaces the UNRESOLVED reference `![a](missing.jpg)` with
`![a](img_02.webp)` and leaves the RESOLVED reference `![b](photo.jpg)`
untouched: `zip(image_refs, files_to_process)` pairs references with plan
entries positionally, ignoring the plan entry's stored originating index,
so the pairing is misaligned as soon as one reference fails to resolve. -/
theorem C1_rewrite_misalignment :
    (process_post inpMissingFirst cfgDefault).newMarkdown
        = some ("![a](img_02.webp) ![b](photo.jpg)".toList)
      ∧ (process_post inpMissingFirst cfgDefault).plan
        = [⟨"photo.jpg".toList, "img_02.webp".toList, 2⟩] := by
  constructor
  · decide
  · decide

/-- C2: resize behavior of `convert_to_webp`.  If the larger dimension is
within `max_width`, the dimensions are unchanged; otherwise the larger side
becomes `max_width` and the smaller side is the proportional value
truncated downward (`int()` on a non-negative float, i.e. `Nat` floor
division), not rounded to the nearest integer. -/
theorem C2_resize_bounds (m w h : Nat) :
    (max w h ≤ m → resize_dimensions m w h = (w, h))
      ∧ (m < max w h → h < w → resize_dimensions m w h = (m, h * m / w))
      ∧ (m < max w h → w ≤ h → resize_dimensions m w h = (w * m / h, m)) := by
  refine ⟨fun hle => ?_, fun hgt hwh => ?_, fun hgt hwh => ?_⟩
  · rw [resize_dimensions, if_neg (by omega)]
  · rw [resize_dimensions, if_pos (by omega), if_pos (by omega)]
  · rw [resize_dimensions, if_pos (by omega), if_neg (by omega)]

/-- C2 witness: a 3000×2000 image with `max_width = 1500` resizes to
1500×1000, by the main theorem. -/
theorem C2_resize_witness :
    1500 < max 3000 2000 ∧ 2000 < 3000
      ∧ resize_dimensions 1500 3000 2000 = (1500, 1000) :=
  ⟨by decide, by decide, (C2_resize_bounds 1500 3000 2000).2.1 (by decide) (by decide)⟩

/-- C2 counterexample to the claim as stated: a 7×5 image with
`max_width = 5` produces 5×3 (the smaller side `5 * 5 / 7` is truncated to
3), while rounding to the nearest integer — what the claim specifies —
would give `round (25 / 7) = 4`, i.e. 5×4. -/
theorem C2_resize_counterexample :
    resize_dimensions 5 7 5 = (5, 3) ∧ round ((5 : ℚ) * 5 / 7) = 4 := by
  constructor
  · decide
  · rw [round_eq]; norm_num

/-- C3: for every successful transcode, `process_image` reports compression
`int((1 - new/orig) * 100)` — the truncation toward zero of the exact
value, `Int.tdiv ((orig - new) * 100) orig` — when `orig > 0`, and reports
`0` when `orig = 0`, returning normally in both cases (no division is
attempted when `orig = 0`). -/
theorem C3_compression (tr : Str → Except Str (Nat × Nat)) (input output : Str)
    (orig newSize : Nat) (h : tr input = Except.ok (orig, newSize)) :
    (0 < orig → process_image tr input output
        = ProcResult.ok input output orig newSize
            (Int.tdiv (((orig : Int) - (newSize : Int)) * 100) (orig : Int)))
      ∧ (orig = 0 → process_image tr input output
        = ProcResult.ok input output orig newSize 0) := by
  constructor <;> intro h0 <;> simp [process_image, h, h0]

/-- C3 witness: a zero-byte original reports compression `0` without any
division fault, by the main theorem. -/
theorem C3_compression_witness :
    (fun _ => Except.ok (0, 5) : Str → Except Str (Nat × Nat)) "a.jpg".toList
        = Except.ok (0, 5)
      ∧ process_image (fun _ => Except.ok (0, 5)) "a.jpg".toList "img_01.webp".toList
        = ProcResult.ok "a.jpg".toList "img_01.webp".toList 0 5 0 :=
  ⟨rfl, (C3_compression (fun _ => Except.ok (0, 5)) "a.jpg".toList "img_01.webp".toList
      0 5 rfl).2 rfl⟩

/-- C3 counterexample to the claim as stated: an original of 3 bytes and a
new size of 1 byte is reported as 66% (truncation of 66.67), while the
claim's `round((1 - new/original) * 100)` equals 67. -/
theorem C3_compression_counterexample :
    process_image (fun _ => Except.ok (3, 1)) "a.jpg".toList "img_01.webp".toList
        = ProcResult.ok "a.jpg".toList "img_01.webp".toList 3 1 66
      ∧ round (((1 : ℚ) - 1 / 3) * 100) = 67 := by
  constructor
  · decide
  · rw [round_eq]; norm_num

/-- C4 counterexample to the claim as stated: in `![x![y](z)](w)` the
well-formed reference `![x![y](z)` starts at position 0 (alt `x![y` has no
`']'`, path `z` is non-empty with no `')'`) and the well-formed reference
`![y](z)` starts at position 3, two distinct occurrences — yet extraction
returns a single entry, because `re.findall` scans left to right and skips
over the text of each match. -/
theorem C4_extract_counterexample :
    ("![x![y](z)](w)".toList = mkRef "x![y".toList "z".toList ++ "](w)".toList)
      ∧ ("![x![y](z)](w)".toList
          = "![x".toList ++ (mkRef "y".toList "z".toList ++ "](w)".toList))
      ∧ (']' ∉ "x![y".toList) ∧ (']' ∉ "y".toList)
      ∧ ("z".toList ≠ ([] : Str)) ∧ (')' ∉ "z".toList)
      ∧ (extract_image_references "![x![y](z)](w)".toList).length = 1 := by
  refine ⟨by decide, by decide, by decide, by decide, by decide, by decide, by decide⟩

/-- C5: the three-tier resolution order of `find_file_by_basename`.  An
exact filename match always wins; with no exact match, any file whose stem
equals the requested stem is found (and the result then has that stem
property); with no exact or stem match, any file containing the requested
stem as a substring is found; with none of the three, resolution returns
`none`.  Later tiers never override an earlier match. -/
theorem C5_resolver_tiers (files : List Str) (filename : Str) :
    (filename ∈ files → find_file_by_basename files filename = some filename)
      ∧ (filename ∉ files →
          ∀ f0 ∈ files, stemName f0 = pyPathStem filename →
            ∃ f, find_file_by_basename files filename = some f
              ∧ f ∈ files ∧ stemName f = pyPathStem filename)
      ∧ (filename ∉ files → (∀ f ∈ files, stemName f ≠ pyPathStem filename) →
          ∀ f0 ∈ files, subOf (pyPathStem filename) f0 = true →
            ∃ f, find_file_by_basename files filename = some f
              ∧ f ∈ files ∧ subOf (pyPathStem filename) f = true)
      ∧ (filename ∉ files → (∀ f ∈ files, stemName f ≠ pyPathStem filename) →
          (∀ f ∈ files, subOf (pyPathStem filename) f = false) →
          find_file_by_basename files filename = none) := by
  refine ⟨fun hmem => ?_, fun hnm f0 hf0 hstem => ?_,
    fun hnm hnostem f0 hf0 hsub => ?_, fun hnm hnostem hnosub => ?_⟩
  · rw [find_file_by_basename, if_pos hmem]
  · cases hfind : files.find? (fun f => stemName f == pyPathStem filename) with
    | none =>
      exfalso
      have hall := List.find?_eq_none.mp hfind f0 hf0
      rw [hstem] at hall
      exact hall (by simp)
    | some f =>
      refine ⟨f, ?_, List.mem_of_find?_eq_some hfind, ?_⟩
      · rw [find_file_by_basename, if_neg hnm]
        simp only [hfind]
      · have := List.find?_some hfind
        exact eq_of_beq this
  · have hstemnone : files.find? (fun f => stemName f == pyPathStem filename) = none := by
      apply List.find?_eq_none.mpr
      intro x hx
      simp [hnostem x hx]
    cases hfindsub : files.find? (fun f => subOf (pyPathStem filename) f) with
    | none =>
      exfalso
      have hall := List.find?_eq_none.mp hfindsub f0 hf0
      rw [hsub] at hall
      exact hall rfl
    | some f =>
      refine ⟨f, ?_, List.mem_of_find?_eq_some hfindsub, List.find?_some hfindsub⟩
      rw [find_file_by_basename, if_neg hnm]
      simp only [hstemnone, hfindsub]
  · have hstemnone : files.find? (fun f => stemName f == pyPathStem filename) = none := by
      apply List.find?_eq_none.mpr
      intro x hx
      simp [hnostem x hx]
    have hsubnone : files.find? (fun f => subOf (pyPathStem filename) f) = none := by
      apply List.find?_eq_none.mpr
      intro x hx
      simp [hnosub x hx]
    rw [find_file_by_basename, if_neg hnm]
    simp only [hstemnone, hsubnone]

/-- C5 witness: an attachments folder holding `photo.jpeg` resolves a
reference to `photo.jpg` to `photo.jpeg`, through the stem tier of the
main theorem. -/
theorem C5_resolver_witness :
    find_file_by_basename ["photo.jpeg".toList] "photo.jpg".toList
      = some ("photo.jpeg".toList) := by
  obtain ⟨f, hres, hmem, -⟩ :=
    (C5_resolver_tiers ["photo.jpeg".toList] "photo.jpg".toList).2.1
      (by decide) ("photo.jpeg".toList) (by decide) (by decide)
  rw [List.mem_singleton.mp hmem] at hres
  exact hres

/-- A resolved file always is one of the attachment entries. -/
theorem find_some_mem (files : List Str) (fn f : Str)
    (h : find_file_by_basename files fn = some f) : f ∈ files := by
  rw [find_file_by_basename] at h
  by_cases hmem : fn ∈ files
  · rw [if_pos hmem] at h
    have := Option.some.inj h
    exact this ▸ hmem
  · rw [if_neg hmem] at h
    cases hfind : files.find? (fun g => stemName g == pyPathStem fn) with
    | some g =>
      simp only [hfind] at h
      have := Option.some.inj h
      exact this ▸ List.mem_of_find?_eq_some hfind
    | none =>
      simp only [hfind] at h
      exact List.mem_of_find?_eq_some h

/-- A filename that fails to resolve is not an attachment entry (the exact
tier would have matched it). -/
theorem find_none_not_mem (files : List Str) (fn : Str)
    (h : find_file_by_basename files fn = none) : fn ∉ files := by
  intro hmem
  rw [find_file_by_basename, if_pos hmem] at h
  cases h

/-- Every name in `processed_files` is an attachment entry. -/
theorem planRefsGo_processed_mem (files : List Str) (nr : Bool) :
    ∀ (i : Nat) (refs : List (Str × Str × Str)) (x : Str),
      x ∈ (planRefsGo files nr i refs).processed_files → x ∈ files := by
  intro i refs
  induction refs generalizing i with
  | nil => intro x hx; simp [planRefsGo] at hx
  | cons r rest ih =>
    intro x hx
    obtain ⟨full, alt, path⟩ := r
    cases hfind : find_file_by_basename files (refFilename path) with
    | none =>
      simp only [planRefsGo, hfind] at hx
      exact ih (i + 1) x hx
    | some fp =>
      cases hft : get_file_type fp with
      | none =>
        simp only [planRefsGo, hfind, hft] at hx
        exact ih (i + 1) x hx
      | some ft =>
        cases ft
        case video =>
          simp only [planRefsGo, hfind, hft] at hx
          exact ih (i + 1) x hx
        all_goals
          simp only [planRefsGo, hfind, hft, List.mem_cons] at hx
          rcases hx with rfl | hx
          · exact find_some_mem files (refFilename path) x hfind
          · exact ih (i + 1) x hx

/-- Every name in `missing_files` is absent from the attachments. -/
theorem planRefsGo_missing_not_mem (files : List Str) (nr : Bool) :
    ∀ (i : Nat) (refs : List (Str × Str × Str)) (x : Str),
      x ∈ (planRefsGo files nr i refs).missing_files → x ∉ files := by
  intro i refs
  induction refs generalizing i with
  | nil => intro x hx; simp [planRefsGo] at hx
  | cons r rest ih =>
    intro x hx
    obtain ⟨full, alt, path⟩ := r
    cases hfind : find_file_by_basename files (refFilename path) with
    | none =>
      simp only [planRefsGo, hfind, List.mem_cons] at hx
      rcases hx with rfl | hx
      · exact find_none_not_mem files (refFilename path) hfind
      · exact ih (i + 1) x hx
    | some fp =>
      cases hft : get_file_type fp with
      | none =>
        simp only [planRefsGo, hfind, hft] at hx
        exact ih (i + 1) x hx
      | some ft =>
        cases ft
        case video =>
          simp only [planRefsGo, hfind, hft] at hx
          exact ih (i + 1) x hx
        all_goals
          simp only [planRefsGo, hfind, hft] at hx
          exact ih (i + 1) x hx

/-- C7: after planning, the "unused" set is exactly the set difference of
all attachment filenames minus the resolved source filenames of the plan,
and both the missing set and the unused set are disjoint from the
processed set. -/
theorem C7_unused_disjoint (files : List Str) (nr : Bool)
    (refs : List (Str × Str × Str)) :
    ((files.filter
          (fun f => !((planRefsGo files nr 1 refs).processed_files.contains f))).toFinset
        = files.toFinset \ (planRefsGo files nr 1 refs).processed_files.toFinset)
      ∧ ((planRefsGo files nr 1 refs).missing_files.toFinset
          ∩ (planRefsGo files nr 1 refs).processed_files.toFinset = ∅)
      ∧ ((files.filter
            (fun f => !((planRefsGo files nr 1 refs).processed_files.contains f))).toFinset
          ∩ (planRefsGo files nr 1 refs).processed_files.toFinset = ∅) := by
  refine ⟨?_, ?_, ?_⟩
  · ext x
    simp [List.mem_filter, List.elem_iff]
  · ext x
    simp only [Finset.mem_inter, List.mem_toFinset, Finset.not_mem_empty, iff_false,
      not_and]
    intro hm hp
    exact planRefsGo_missing_not_mem files nr 1 refs x hm
      (planRefsGo_processed_mem files nr 1 refs x hp)
  · ext x
    simp only [Finset.mem_inter, List.mem_toFinset, List.mem_filter,
      Finset.not_mem_empty, iff_false, not_and, Bool.not_eq_true]
    intro hm hp
    have hc : (planRefsGo files nr 1 refs).processed_files.contains x = true :=
      List.elem_iff.mpr hp
    simp only [hc, Bool.not_true] at hm
    exact absurd hm.2 (by simp)

/-- Every plan entry originates from the reference at position
`idx - i` of the remaining list (0-based), resolves to its `src`, and
carries the name computed from the renaming flag and its index. -/
theorem planRefsGo_plan_entry (files : List Str) (nr : Bool) :
    ∀ (i : Nat) (refs : List (Str × Str × Str)) (e : PlanEntry),
      e ∈ (planRefsGo files nr i refs).files_to_process →
      ∃ k full alt path, refs[k]? = some (full, alt, path)
        ∧ e.idx = i + k
        ∧ find_file_by_basename files (refFilename path) = some e.src
        ∧ e.newName = (if nr then pyPathStem (refFilename path)
            else "img_".toList ++ pad2 e.idx) ++ ".webp".toList := by
  intro i refs
  induction refs generalizing i with
  | nil => intro e he; simp [planRefsGo] at he
  | cons r rest ih =>
    intro e he
    obtain ⟨full, alt, path⟩ := r
    cases hfind : find_file_by_basename files (refFilename path) with
    | none =>
      simp only [planRefsGo, hfind] at he
      obtain ⟨k, f2, a2, p2, hget, hidx, hres, hname⟩ := ih (i + 1) e he
      exact ⟨k + 1, f2, a2, p2, by simpa using hget, by omega, hres, hname⟩
    | some fp =>
      cases hft : get_file_type fp with
      | none =>
        simp only [planRefsGo, hfind, hft] at he
        obtain ⟨k, f2, a2, p2, hget, hidx, hres, hname⟩ := ih (i + 1) e he
        exact ⟨k + 1, f2, a2, p2, by simpa using hget, by omega, hres, hname⟩
      | some ft =>
        cases ft
        case video =>
          simp only [planRefsGo, hfind, hft] at he
          obtain ⟨k, f2, a2, p2, hget, hidx, hres, hname⟩ := ih (i + 1) e he
          exact ⟨k + 1, f2, a2, p2, by simpa using hget, by omega, hres, hname⟩
        all_goals
          simp only [planRefsGo, hfind, hft, List.mem_cons] at he
          rcases he with rfl | he
          · exact ⟨0, full, alt, path, by simp, by simp, hfind, by simp⟩
          · obtain ⟨k, f2, a2, p2, hget, hidx, hres, hname⟩ := ih (i + 1) e he
            exact ⟨k + 1, f2, a2, p2, by simpa using hget, by omega, hres, hname⟩

/-- When every reference resolves, the plan names are exactly
`img_<i>`, `img_<i+1>`, ... in markdown order (renaming enabled). -/
theorem planRefsGo_all_resolve (files : List Str) :
    ∀ (i : Nat) (refs : List (Str × Str × Str)),
      (∀ r ∈ refs, resolvesB files r.2.2 = true) →
      (planRefsGo files false i refs).files_to_process.map (fun e => e.newName)
        = (List.range refs.length).map
            (fun k => "img_".toList ++ pad2 (i + k) ++ ".webp".toList) := by
  intro i refs
  induction refs generalizing i with
  | nil => intro hall; simp [planRefsGo]
  | cons r rest ih =>
    intro hall
    obtain ⟨full, alt, path⟩ := r
    have hr := hall _ (List.mem_cons_self _ _)
    cases hfind : find_file_by_basename files (refFilename path) with
    | none => simp [resolvesB, hfind] at hr
    | some fp =>
      cases hft : get_file_type fp with
      | none => simp [resolvesB, hfind, hft] at hr
      | some ft =>
        cases ft
        case video => simp [resolvesB, hfind, hft] at hr
        all_goals
          simp only [planRefsGo, hfind, hft, List.map_cons, List.length_cons,
            Bool.false_eq_true, if_false]
          rw [ih (i + 1) (fun q hq => hall q (List.mem_cons_of_mem _ hq))]
          rw [List.range_succ_eq_map]
          simp only [List.map_cons, List.map_map]
          refine List.cons_eq_cons.mpr ⟨by simp, ?_⟩
          apply List.map_congr_left
          intro k hk
          have h1 : i + 1 + k = i + (k + 1) := by omega
          simp [Function.comp, h1]

/-- C6: every plan entry's name is `img_<index zero-padded to 2 digits>.webp`
by default (index = 1-based position of the originating reference in the
markdown reference list) and `<original stem>.webp` with renaming disabled;
and when every reference resolves, the default names are
`img_01.webp` ... `img_NN.webp` in order, regardless of original names. -/
theorem C6_plan_naming (files : List Str) (nr : Bool)
    (refs : List (Str × Str × Str)) :
    (∀ e ∈ (planRefsGo files nr 1 refs).files_to_process,
        1 ≤ e.idx ∧ e.idx ≤ refs.length
          ∧ ∃ full alt path, refs[e.idx - 1]? = some (full, alt, path)
              ∧ find_file_by_basename files (refFilename path) = some e.src
              ∧ e.newName = (if nr then pyPathStem (refFilename path)
                  else "img_".toList ++ pad2 e.idx) ++ ".webp".toList)
      ∧ (nr = false → (∀ r ∈ refs, resolvesB files r.2.2 = true) →
          (planRefsGo files nr 1 refs).files_to_process.map (fun e => e.newName)
            = (List.range refs.length).map
                (fun k => "img_".toList ++ pad2 (k + 1) ++ ".webp".toList)) := by
  constructor
  · intro e he
    obtain ⟨k, full, alt, path, hget, hidx, hres, hname⟩ :=
      planRefsGo_plan_entry files nr 1 refs e he
    have hk : k < refs.length := by
      by_contra hge
      rw [List.getElem?_eq_none (by omega)] at hget
      cases hget
    refine ⟨by omega, by omega, full, alt, path, ?_, hres, hname⟩
    have : e.idx - 1 = k := by omega
    rw [this]
    exact hget
  · intro hnr hall
    subst hnr
    rw [planRefsGo_all_resolve files 1 refs hall]
    apply List.map_congr_left
    intro k hk
    have h1 : 1 + k = k + 1 := by omega
    rw [h1]

/-- C6 witness: two resolving references get `img_01.webp` and
`img_02.webp`, by the main theorem. -/
theorem C6_plan_naming_witness :
    (∀ r ∈ refsTwo, resolvesB filesTwo r.2.2 = true)
      ∧ (planRefsGo filesTwo false 1 refsTwo).files_to_process.map (fun e => e.newName)
        = ["img_01.webp".toList, "img_02.webp".toList] := by
  refine ⟨by decide, ?_⟩
  rw [(C6_plan_naming filesTwo false refsTwo).2 rfl (by decide)]
  decide

/-- C8: a dry run performs no filesystem writes at all (the write trace is
empty, so the output directory is never created and no file is produced),
its plan is exactly the plan the non-dry run on the same inputs would
execute, and a validated run returns success. -/
theorem C8_dry_run (inp : RunInput) (cfg : Config) (h : cfg.dry_run = true) :
    (process_post inp cfg).writes = []
      ∧ (process_post inp cfg).plan
        = (process_post inp { cfg with dry_run := false }).plan
      ∧ (validate_source_directory inp = true → (process_post inp cfg).success = true) := by
  cases hv : validate_source_directory inp with
  | false => refine ⟨?_, ?_, ?_⟩ <;> simp [process_post, hv, h]
  | true => refine ⟨?_, ?_, ?_⟩ <;> simp [process_post, hv, h]

/-- C8 witness: a concrete dry run writes nothing, plans the same mapping
as the real run, and succeeds, by the main theorem. -/
theorem C8_dry_run_witness :
    cfgDryRun.dry_run = true
      ∧ (process_post inpMissingFirst cfgDryRun).writes = []
      ∧ (process_post inpMissingFirst cfgDryRun).plan
        = (process_post inpMissingFirst { cfgDryRun with dry_run := false }).plan
      ∧ (process_post inpMissingFirst cfgDryRun).success = true :=
  ⟨rfl, (C8_dry_run inpMissingFirst cfgDryRun rfl).1,
    (C8_dry_run inpMissingFirst cfgDryRun rfl).2.1,
    (C8_dry_run inpMissingFirst cfgDryRun rfl).2.2 (by decide)⟩

/-- C9: on a validated non-dry run, every plan entry is processed (one
result per entry, so a failing entry never aborts the batch), any entry
whose transcode raises is recorded as a failure carrying the error text at
its own position, and the run still returns success (so `main` exits 0). -/
theorem C9_errors_nonfatal (inp : RunInput) (cfg : Config)
    (hv : validate_source_directory inp = true) (hd : cfg.dry_run = false) :
    (process_post inp cfg).success = true
      ∧ (process_post inp cfg).results.length = (process_post inp cfg).plan.length
      ∧ ∀ (i : Nat) (e : PlanEntry) (msg : Str),
          (process_post inp cfg).plan[i]? = some e →
          inp.transcode e.src = Except.error msg →
          (process_post inp cfg).results[i]? = some (ProcResult.fail e.src msg) := by
  refine ⟨?_, ?_, ?_⟩
  · simp [process_post, hv, hd]
  · simp [process_post, hv, hd]
  · intro i e msg hpl htr
    simp only [process_post, hv, hd, Bool.not_true, Bool.false_eq_true, if_false,
      Bool.true_eq_false] at hpl ⊢
    rw [List.getElem?_map, hpl]
    simp [process_image, htr]

/-- C9 witness: the first plan entry fails with "boom", yet appears as a
failure result in place, the batch still has one result per plan entry,
and the run succeeds — by the main theorem. -/
theorem C9_errors_nonfatal_witness :
    (process_post inpFailFirst cfgDefault).success = true
      ∧ (process_post inpFailFirst cfgDefault).plan[0]?
        = some ⟨"bad.jpg".toList, "img_01.webp".toList, 1⟩
      ∧ (process_post inpFailFirst cfgDefault).results[0]?
        = some (ProcResult.fail "bad.jpg".toList "boom".toList)
      ∧ (process_post inpFailFirst cfgDefault).results.length
        = (process_post inpFailFirst cfgDefault).plan.length :=
  ⟨(C9_errors_nonfatal inpFailFirst cfgDefault rfl rfl).1,
    by decide,
    (C9_errors_nonfatal inpFailFirst cfgDefault rfl rfl).2.2 0
      ⟨"bad.jpg".toList, "img_01.webp".toList, 1⟩ "boom".toList (by decide) rfl,
    (C9_errors_nonfatal inpFailFirst cfgDefault rfl rfl).2.1⟩

/-- `takeWhile` returns exactly the prefix up to the first failing element. -/
theorem takeWhile_append_first (p : Char → Bool) (a : Str) (b : Char) (r : Str)
    (ha : ∀ c ∈ a, p c = true) (hb : p b = false) :
    (a ++ b :: r).takeWhile p = a := by
  induction a with
  | nil => simp [List.takeWhile_cons, hb]
  | cons x xs ih =>
    have hx := ha x (List.mem_cons_self x xs)
    simp [List.takeWhile_cons, hx,
      ih (fun c hc => ha c (List.mem_cons_of_mem x hc))]

/-- `dropWhile` drops exactly up to the first failing element. -/
theorem dropWhile_append_first (p : Char → Bool) (a : Str) (b : Char) (r : Str)
    (ha : ∀ c ∈ a, p c = true) (hb : p b = false) :
    (a ++ b :: r).dropWhile p = b :: r := by
  induction a with
  | nil => simp [List.dropWhile_cons, hb]
  | cons x xs ih =>
    have hx := ha x (List.mem_cons_self x xs)
    simp [List.dropWhile_cons, hx,
      ih (fun c hc => ha c (List.mem_cons_of_mem x hc))]

/-- A successful match leaves a strictly shorter remainder. -/
theorem matchImageAt_rest_length (s : Str) (t : Str × Str × Str) (rest : Str)
    (h : matchImageAt s = some (t, rest)) : rest.length < s.length := by
  cases s with
  | nil => simp [matchImageAt] at h
  | cons c1 s1 =>
    cases s1 with
    | nil => simp [matchImageAt] at h
    | cons c2 r =>
      rw [matchImageAt] at h
      by_cases h12 : c1 = '!' ∧ c2 = '['
      · rw [if_pos h12] at h
        cases hdw : r.dropWhile (fun c => c ≠ ']') with
        | nil =>
          simp only [hdw] at h
          exact Option.noConfusion h
        | cons c3 r1 =>
          cases r1 with
          | nil =>
            simp only [hdw] at h
            exact Option.noConfusion h
          | cons c4 r2 =>
            simp only [hdw] at h
            by_cases h34 : c3 = ']' ∧ c4 = '('
            · rw [if_pos h34] at h
              cases hdw2 : r2.dropWhile (fun c => c ≠ ')') with
              | nil =>
                simp only [hdw2] at h
                exact Option.noConfusion h
              | cons c5 r4 =>
                simp only [hdw2] at h
                by_cases h5 : c5 = ')' ∧ r2.takeWhile (fun c => c ≠ ')') ≠ []
                · rw [if_pos h5] at h
                  have h4 : r4 = rest := congrArg Prod.snd (Option.some.inj h)
                  subst h4
                  have h1 : (c5 :: r4).length ≤ r2.length := by
                    have hs := List.dropWhile_suffix (l := r2) (fun c => c ≠ ')')
                    rw [hdw2] at hs
                    exact hs.length_le
                  have h2 : (c3 :: c4 :: r2).length ≤ r.length := by
                    have hs := List.dropWhile_suffix (l := r) (fun c => c ≠ ']')
                    rw [hdw] at hs
                    exact hs.length_le
                  simp only [List.length_cons] at h1 h2 ⊢
                  omega
                · rw [if_neg h5] at h
                  exact Option.noConfusion h
            · rw [if_neg h34] at h
              exact Option.noConfusion h
      · rw [if_neg h12] at h
        exact Option.noConfusion h

/-- No match can start at a character other than `'!'`. -/
theorem matchImageAt_none_of_head (c : Char) (r : Str) (hc : c ≠ '!') :
    matchImageAt (c :: r) = none := by
  cases r with
  | nil => rfl
  | cons c2 rr =>
    rw [matchImageAt, if_neg (fun h12 => hc h12.1)]

/-- The scanner ignores its fuel as long as the fuel covers the input
length. -/
theorem extractGo_congr_aux :
    ∀ (n : Nat) (s : Str), s.length ≤ n → ∀ f g, s.length ≤ f → s.length ≤ g →
      extractGo f s = extractGo g s := by
  intro n
  induction n with
  | zero =>
    intro s hs f g hf hg
    have hnil : s = [] := List.length_eq_zero.mp (Nat.le_zero.mp hs)
    subst hnil
    cases f <;> cases g <;> rfl
  | succ n ih =>
    intro s hs f g hf hg
    cases s with
    | nil => cases f <;> cases g <;> rfl
    | cons c r =>
      cases f with
      | zero => simp at hf
      | succ f2 =>
        cases g with
        | zero => simp at hg
        | succ g2 =>
          cases hm : matchImageAt (c :: r) with
          | some tr =>
            obtain ⟨t, rest⟩ := tr
            have hlt := matchImageAt_rest_length (c :: r) t rest hm
            simp only [extractGo, hm]
            have hlen : rest.length ≤ n := by
              simp only [List.length_cons] at hs hlt
              omega
            have hf2 : rest.length ≤ f2 := by
              simp only [List.length_cons] at hf hlt
              omega
            have hg2 : rest.length ≤ g2 := by
              simp only [List.length_cons] at hg hlt
              omega
            rw [ih rest hlen f2 g2 hf2 hg2]
          | none =>
            simp only [extractGo, hm]
            have hlen : r.length ≤ n := by
              simp only [List.length_cons] at hs
              omega
            exact ih r hlen f2 g2
              (by simp only [List.length_cons] at hf; omega)
              (by simp only [List.length_cons] at hg; omega)

/-- Fuel-independence of the scanner above the input length. -/
theorem extractGo_congr (f g : Nat) (s : Str) (hf : s.length ≤ f) (hg : s.length ≤ g) :
    extractGo f s = extractGo g s :=
  extractGo_congr_aux s.length s le_rfl f g hf hg

/-- A position with no match contributes nothing. -/
theorem extract_cons_none (c : Char) (r : Str) (h : matchImageAt (c :: r) = none) :
    extract_image_references (c :: r) = extract_image_references r := by
  rw [extract_image_references, extract_image_references]
  rw [show (c :: r).length = r.length + 1 from by simp]
  rw [extractGo]
  simp only [h]

/-- A position with a match contributes its triple and the scan resumes
after the matched text. -/
theorem extract_cons_some (c : Char) (r : Str) (t : Str × Str × Str) (rest : Str)
    (h : matchImageAt (c :: r) = some (t, rest)) :
    extract_image_references (c :: r) = t :: extract_image_references rest := by
  have hlt := matchImageAt_rest_length (c :: r) t rest h
  rw [extract_image_references, extract_image_references]
  rw [show (c :: r).length = r.length + 1 from by simp]
  rw [extractGo]
  simp only [h]
  have hle : rest.length ≤ r.length := by
    simp only [List.length_cons] at hlt
    omega
  rw [extractGo_congr r.length rest.length rest hle le_rfl]

/-- Text without `'!'` contributes nothing to extraction. -/
theorem extract_skip (t s : Str) (ht : '!' ∉ t) :
    extract_image_references (t ++ s) = extract_image_references s := by
  induction t with
  | nil => simp
  | cons c t2 ih =>
    have hc : c ≠ '!' := fun hcc => ht (hcc ▸ List.mem_cons_self c t2)
    have ht2 : '!' ∉ t2 := fun hm => ht (List.mem_cons_of_mem c hm)
    rw [List.cons_append,
      extract_cons_none c (t2 ++ s) (matchImageAt_none_of_head c (t2 ++ s) hc)]
    exact ih ht2

/-- The matcher recognizes a well-formed reference at the head of the
input: alt text free of `']'`, non-empty path free of `')'`. -/
theorem matchImageAt_mkRef (alt path rest : Str)
    (ha : ']' ∉ alt) (hp : path ≠ []) (hq : ')' ∉ path) :
    matchImageAt (mkRef alt path ++ rest) = some ((mkRef alt path, alt, path), rest) := by
  have hA : ∀ c ∈ alt, (fun c => (decide (c ≠ ']'))) c = true :=
    fun c hc => decide_eq_true (fun hceq => ha (hceq ▸ hc))
  have hP : ∀ c ∈ path, (fun c => (decide (c ≠ ')'))) c = true :=
    fun c hc => decide_eq_true (fun hceq => hq (hceq ▸ hc))
  have hshape : mkRef alt path ++ rest
      = '!' :: '[' :: (alt ++ ']' :: '(' :: (path ++ ')' :: rest)) := by
    simp [mkRef]
  have hdw1 : (alt ++ ']' :: '(' :: (path ++ ')' :: rest)).dropWhile (fun c => c ≠ ']')
      = ']' :: '(' :: (path ++ ')' :: rest) :=
    dropWhile_append_first _ alt ']' _ hA (by decide)
  have htw1 : (alt ++ ']' :: '(' :: (path ++ ')' :: rest)).takeWhile (fun c => c ≠ ']')
      = alt :=
    takeWhile_append_first _ alt ']' _ hA (by decide)
  have hdw2 : (path ++ ')' :: rest).dropWhile (fun c => c ≠ ')') = ')' :: rest :=
    dropWhile_append_first _ path ')' _ hP (by decide)
  have htw2 : (path ++ ')' :: rest).takeWhile (fun c => c ≠ ')') = path :=
    takeWhile_append_first _ path ')' _ hP (by decide)
  rw [hshape, matchImageAt, if_pos ⟨rfl, rfl⟩]
  simp only [hdw1, htw1]
  rw [if_pos (by simp)]
  simp only [hdw2, htw2]
  rw [if_pos (by simp [hp])]

/-- Extraction of a well-formed reference at the head of the input. -/
theorem extract_ref (alt path rest : Str)
    (ha : ']' ∉ alt) (hp : path ≠ []) (hq : ')' ∉ path) :
    extract_image_references (mkRef alt path ++ rest)
      = (mkRef alt path, alt, path) :: extract_image_references rest := by
  have hm := matchImageAt_mkRef alt path rest ha hp hq
  have hshape : mkRef alt path ++ rest
      = '!' :: '[' :: (alt ++ ']' :: '(' :: (path ++ ')' :: rest)) := by
    simp [mkRef]
  rw [hshape] at hm ⊢
  exact extract_cons_some _ _ _ _ hm

/-- C4 (amended): for markdown decomposed as alternating `'!'`-free text
and well-formed image references (alt without `']'`, non-empty path
without `')'`), extraction returns exactly one entry per reference, in
document order, with alt and path verbatim and the full matched text equal
to the matched substring; duplicate identical references each yield their
own entry.  This is the leftmost non-overlapping reading of "occurrence";
the unrestricted reading fails on overlapping occurrences (see the
counterexample). -/
theorem C4_extract_decomposition (ps : List ((Str × Str) × Str)) (t0 : Str)
    (h0 : '!' ∉ t0)
    (hps : ∀ q ∈ ps, ']' ∉ q.1.1 ∧ q.1.2 ≠ [] ∧ ')' ∉ q.1.2 ∧ '!' ∉ q.2) :
    extract_image_references (interleave t0 ps)
      = ps.map (fun q => (mkRef q.1.1 q.1.2, q.1.1, q.1.2)) := by
  induction ps generalizing t0 with
  | nil =>
    rw [interleave]
    have h := extract_skip t0 [] h0
    simpa using h
  | cons q rest ih =>
    obtain ⟨⟨alt, path⟩, t⟩ := q
    obtain ⟨ha, hp, hq2, ht⟩ := hps _ (List.mem_cons_self _ _)
    rw [interleave]
    rw [extract_skip t0 _ h0]
    rw [extract_ref alt path _ ha hp hq2]
    rw [ih t ht (fun q2 hq3 => hps q2 (List.mem_cons_of_mem _ hq3))]
    simp

/-- C4 witness: two identical references separated by plain text are each
extracted, in order, verbatim — by the main theorem. -/
theorem C4_extract_witness :
    extract_image_references
        (interleave "Hello ".toList
          [(("a".toList, "photo.jpg".toList), " mid ".toList),
            (("a".toList, "photo.jpg".toList), "".toList)])
      = [("![a](photo.jpg)".toList, "a".toList, "photo.jpg".toList),
          ("![a](photo.jpg)".toList, "a".toList, "photo.jpg".toList)] := by
  rw [C4_extract_decomposition
      [(("a".toList, "photo.jpg".toList), " mid ".toList),
        (("a".toList, "photo.jpg".toList), "".toList)]
      "Hello ".toList (by decide) (by decide)]
  decide

end PostImages
